import Mathlib

/-!
# Verification of the `playfair` Rust crate (`src/lib.rs`)

A shallow embedding of the Playfair cipher implementation:

* strings are modelled as `List Char` (Unicode scalar values);
* Rust byte indices (`String::len`, `String::insert`, `str::char_indices`)
  are modelled through `Char.utf8Size`;
* code that can panic in Rust (out-of-bounds indexing, `Option::unwrap`,
  inserting at a non-boundary byte index) or diverge (the recursive
  fallback lookup when `'i'` is absent) returns `Option`, with `none`
  standing for the panic / divergence.

`char::is_alphabetic` (the Unicode `Alphabetic` property) and the
per-character effect of `str::to_lowercase` are modelled faithfully for
all code points below `0x100` (ASCII plus the Latin-1 supplement), which
covers every character any theorem below touches; code points at or above
`0x100` are treated as non-alphabetic and case-invariant.
-/

/-- Models Rust `char::is_alphabetic` on code points below `0x100`:
ASCII letters, the Latin-1 letters `ª µ º`, and `À`–`ÿ` without the two
operators `×` and `÷`.  Code points `≥ 0x100` are treated as
non-alphabetic (see the module comment). -/
def is_alphabetic (c : Char) : Bool :=
  (97 ≤ c.toNat && c.toNat ≤ 122) || (65 ≤ c.toNat && c.toNat ≤ 90) ||
  (c.toNat == 0xAA || c.toNat == 0xB5 || c.toNat == 0xBA) ||
  (0xC0 ≤ c.toNat && c.toNat ≤ 0xFF && c.toNat != 0xD7 && c.toNat != 0xF7)

/-- Models the per-character effect of Rust `str::to_lowercase` on code
points below `0x100`: `A`–`Z` and the Latin-1 capitals `À`–`Þ` (without
`×`) move down by 32, everything else below `0x100` is unchanged.  Code
points `≥ 0x100` are left unchanged (see the module comment). -/
def to_lowercase (c : Char) : Char :=
  if (65 ≤ c.toNat && c.toNat ≤ 90) || (0xC0 ≤ c.toNat && c.toNat ≤ 0xDE && c.toNat != 0xD7)
  then Char.ofNat (c.toNat + 32) else c

/-- The 25-letter alphabet `"abcdefghiklmnopqrstuvwxyz"` (no `'j'`)
appended in `Keyword::new`; it is exactly the 25-symbol universe of the
cipher. -/
def alphabet : List Char :=
  ['a', 'b', 'c', 'd', 'e', 'f', 'g', 'h', 'i', 'k', 'l', 'm', 'n',
   'o', 'p', 'q', 'r', 's', 't', 'u', 'v', 'w', 'x', 'y', 'z']

/-- One step of the deduplicating buffer loop of `Keyword::new`:
`if buffer.find(c).is_none() { buffer.push(c); }`. -/
def push_new (buffer : List Char) (c : Char) : List Char :=
  if c ∈ buffer then buffer else buffer ++ [c]

/-- `Keyword::new` (src/lib.rs:48-81): lowercase the seed, keep only the
alphabetic characters other than `'j'`, append the 25-letter alphabet,
then collect first occurrences.

The Rust `while buffer.len() < 25` loop runs its inner `for` pass exactly
once: one pass already pushes every distinct character of `parsed`, and
the appended 25-letter alphabet guarantees at least 25 distinct one-byte
characters, so `buffer.len() ≥ 25` afterwards and the loop exits (a
second pass would add nothing anyway, since membership is re-checked).
Hence the loop is one `foldl` of `push_new` over `parsed`.

Note there is no cap at 25 symbols: every distinct character of `parsed`
is kept, which matters for non-ASCII seeds. -/
def Keyword.new (initial : List Char) : List Char :=
  let parsed : List Char :=
    ((initial.map to_lowercase).filter (fun c => is_alphabetic c && c != 'j')) ++ alphabet
  parsed.foldl push_new []

/-- The `Matrix` type of the source (`[[char; 5]; 5]`), modelled as a list
of rows.  (The name `Matrix` itself is taken by Mathlib.) -/
abbrev PMatrix := List (List Char)

/-- `Position` (src/lib.rs:10): an (outer, inner) index pair into the
matrix. -/
abbrev Position := Nat × Nat

/-- `Bigram` (src/lib.rs:7). -/
abbrev Bigram := Char × Char

/-- The all-`'\0'` initial matrix of `Keyword::to_matrix`. -/
def init_matrix : PMatrix :=
  [['\x00', '\x00', '\x00', '\x00', '\x00'],
   ['\x00', '\x00', '\x00', '\x00', '\x00'],
   ['\x00', '\x00', '\x00', '\x00', '\x00'],
   ['\x00', '\x00', '\x00', '\x00', '\x00'],
   ['\x00', '\x00', '\x00', '\x00', '\x00']]

/-- Read `matrix[i][j]`.  Every use below is at indices that are in
bounds for a 5×5 matrix (Rust would panic otherwise), so a total `getD`
accessor is faithful. -/
def entry (m : PMatrix) (i j : Nat) : Char := (m.getD i []).getD j '\x00'

/-- Write `matrix[i][j] = c` (callers establish `i, j < 5`). -/
def set2d (m : PMatrix) (i j : Nat) (c : Char) : PMatrix :=
  m.set i ((m.getD i []).set j c)

/-- The loop of `Keyword::to_matrix` (src/lib.rs:85-101).  `idx` is the
current byte offset produced by `char_indices`; the write
`mtx[idx % 5][idx / 5] = chr` is in bounds iff `idx / 5 < 5`
(`idx % 5 < 5` always holds), and an out-of-bounds write is a Rust panic,
modelled by `none`. -/
def Keyword.to_matrix_go : List Char → Nat → PMatrix → Option PMatrix
  | [], _, m => some m
  | c :: cs, idx, m =>
    if idx / 5 < 5 then
      Keyword.to_matrix_go cs (idx + c.utf8Size) (set2d m (idx % 5) (idx / 5) c)
    else none

/-- `Keyword::to_matrix` (src/lib.rs:85-101). -/
def Keyword.to_matrix (kw : List Char) : Option PMatrix :=
  Keyword.to_matrix_go kw 0 init_matrix

/-- The `Playfair` cipher structure (src/lib.rs:105-110). -/
structure Playfair where
  keyword : List Char
  matrix : PMatrix
  deriving DecidableEq

/-- `Playfair::new` (src/lib.rs:199-207); `none` when `to_matrix`
panics. -/
def Playfair.new (kw : List Char) : Option Playfair :=
  let keyword := Keyword.new kw
  (Keyword.to_matrix keyword).map (fun matrix => ⟨keyword, matrix⟩)

/-- `Playfair::update_keyword` (src/lib.rs:280-290): both fields are
rebuilt from the new seed and replace the old ones wholesale. -/
def Playfair.update_keyword (_self : Playfair) (kw : List Char) : Option Playfair :=
  let kw' := Keyword.new kw
  (Keyword.to_matrix kw').map (fun mx => ⟨kw', mx⟩)

/-- Inner loop of `get_position_in_matrix`: first index `jdx` of
`to_search` in one row, offset by `jdx0`. -/
def find_in_row : List Char → Nat → Char → Option Nat
  | [], _, _ => none
  | chr :: rest, jdx, t => if t = chr then some jdx else find_in_row rest (jdx + 1) t

/-- Outer loop of `get_position_in_matrix`: scan the rows in order,
returning the first `(idx, jdx)` with `matrix[idx][jdx] = to_search`. -/
def find_in_matrix : PMatrix → Nat → Char → Option Position
  | [], _, _ => none
  | row :: rest, idx, t =>
    match find_in_row row 0 t with
    | some jdx => some (idx, jdx)
    | none => find_in_matrix rest (idx + 1) t

/-- `Playfair::get_position_in_matrix` (src/lib.rs:255-270).  When the
scan fails the source calls itself on `'i'`; that recursive call returns
the position of `'i'` if present and otherwise recurses forever, so the
fallback is one more scan for `'i'`, with `none` for the divergence. -/
def Playfair.get_position_in_matrix (self : Playfair) (to_search : Char) : Option Position :=
  match find_in_matrix self.matrix 0 to_search with
  | some p => some p
  | none => find_in_matrix self.matrix 0 'i'

/-- UTF-8 byte length of a string, as returned by Rust `String::len`. -/
def utf8_len (s : List Char) : Nat := (s.map Char.utf8Size).sum

/-- Convert a byte index into a character index: `some k` when the byte
index is the start of character `k` (or one past the last character),
`none` when it is not a character boundary or is beyond the string. -/
def byte_to_char_idx : List Char → Nat → Option Nat
  | _, 0 => some 0
  | [], _ + 1 => none
  | c :: rest, b + 1 =>
    if c.utf8Size ≤ b + 1 then (byte_to_char_idx rest (b + 1 - c.utf8Size)).map (· + 1)
    else none

/-- `String::insert(b, 'x')` at byte index `b`: panics (`none`) unless
`b` is a character boundary. -/
def insert_at_byte (s : List Char) (b : Nat) : Option (List Char) :=
  (byte_to_char_idx s b).map (fun k => s.insertIdx k 'x')

/-- The index sequence of `for idx in (0..stop).step_by(2)`:
`[0, 2, 4, …]` below `stop`.  Rust evaluates `input.len()` once when the
`Range` is built, so insertions during the loop do not extend it. -/
def step2_indices (stop : Nat) : List Nat := List.range' 0 ((stop + 1) / 2) 2

/-- The duplicate-splitting loop of `Playfair::bigramify`
(src/lib.rs:223-231):

    for idx in (0..input.len()).step_by(2) {
        let a = input.chars().nth(idx).unwrap();
        if let Some(b) = input.chars().nth(idx + 1) {
            if a == b { input.insert(idx + 1, 'x'); }
        }
    }

`idx` ranges over the byte-length range frozen at loop entry
(`step2_indices`), but `nth` counts characters and `insert` takes a byte
index; the three agree only while the string is ASCII.
`nth(idx).unwrap()` on a too-short string is a panic (`none`). -/
def Playfair.bigram_loop (s : List Char) : List Nat → Option (List Char)
  | [] => some s
  | idx :: rest =>
    match s.get? idx with
    | none => none
    | some a =>
      match s.get? (idx + 1) with
      | some b =>
        if a = b then
          match insert_at_byte s (idx + 1) with
          | none => none
          | some s' => Playfair.bigram_loop s' rest
        else Playfair.bigram_loop s rest
      | none => Playfair.bigram_loop s rest

/-- `array_chunks::<2>` over the characters, dropping a leftover
character (the remainder iterator is never used by the source). -/
def chunk_pairs : List Char → List Bigram
  | a :: b :: rest => (a, b) :: chunk_pairs rest
  | _ => []

/-- `Playfair::bigramify` (src/lib.rs:212-250): lowercase and keep only
alphabetic characters, run the duplicate-splitting loop, pad with `'x'`
if the byte length is odd, then chunk into pairs. -/
def Playfair.bigramify (input : List Char) : Option (List Bigram) :=
  let filtered : List Char := (input.map to_lowercase).filter (fun c => is_alphabetic c)
  match Playfair.bigram_loop filtered (step2_indices (utf8_len filtered)) with
  | none => none
  | some s =>
    let s' := if utf8_len s % 2 != 0 then s ++ ['x'] else s
    some (chunk_pairs s')

/-- Body of the `encrypt` loop (src/lib.rs:119-141) for one bigram: the
two characters pushed to the buffer. -/
def Playfair.encrypt_pair (self : Playfair) (bg : Bigram) : Option (List Char) :=
  match self.get_position_in_matrix bg.1 with
  | none => none
  | some a_pos =>
    match self.get_position_in_matrix bg.2 with
    | none => none
    | some b_pos =>
      if a_pos.1 = b_pos.1 then
        some [entry self.matrix a_pos.1 ((a_pos.2 + 1) % 5),
              entry self.matrix b_pos.1 ((b_pos.2 + 1) % 5)]
      else if a_pos.2 = b_pos.2 then
        some [entry self.matrix ((a_pos.1 + 1) % 5) a_pos.2,
              entry self.matrix ((b_pos.1 + 1) % 5) b_pos.2]
      else
        some [entry self.matrix b_pos.1 a_pos.2,
              entry self.matrix a_pos.1 b_pos.2]

/-- `checked_sub(1).unwrap_or(4)` (src/lib.rs:166-167, 179-180). -/
def sub_one_or_four (n : Nat) : Nat :=
  match n with
  | 0 => 4
  | m + 1 => m

/-- Body of the `decrypt` loop (src/lib.rs:152-190) for one bigram. -/
def Playfair.decrypt_pair (self : Playfair) (bg : Bigram) : Option (List Char) :=
  match self.get_position_in_matrix bg.1 with
  | none => none
  | some a_pos =>
    match self.get_position_in_matrix bg.2 with
    | none => none
    | some b_pos =>
      if a_pos.1 = b_pos.1 then
        some [entry self.matrix a_pos.1 (sub_one_or_four a_pos.2),
              entry self.matrix b_pos.1 (sub_one_or_four b_pos.2)]
      else if a_pos.2 = b_pos.2 then
        some [entry self.matrix (sub_one_or_four a_pos.1) a_pos.2,
              entry self.matrix (sub_one_or_four b_pos.1) b_pos.2]
      else
        some [entry self.matrix b_pos.1 a_pos.2,
              entry self.matrix a_pos.1 b_pos.2]

/-- The `encrypt` loop over all bigrams, concatenating the pushed
characters. -/
def Playfair.encrypt_go (self : Playfair) : List Bigram → Option (List Char)
  | [] => some []
  | bg :: rest =>
    match self.encrypt_pair bg, Playfair.encrypt_go self rest with
    | some out, some buf => some (out ++ buf)
    | _, _ => none

/-- The `decrypt` loop over all bigrams. -/
def Playfair.decrypt_go (self : Playfair) : List Bigram → Option (List Char)
  | [] => some []
  | bg :: rest =>
    match self.decrypt_pair bg, Playfair.decrypt_go self rest with
    | some out, some buf => some (out ++ buf)
    | _, _ => none

/-- `<Playfair as Cipher>::encrypt` (src/lib.rs:114-144). -/
def Playfair.encrypt (self : Playfair) (plaintext : List Char) : Option (List Char) :=
  match Playfair.bigramify plaintext with
  | none => none
  | some bigrams => self.encrypt_go bigrams

/-- `<Playfair as Cipher>::decrypt` (src/lib.rs:147-193). -/
def Playfair.decrypt (self : Playfair) (ciphertext : List Char) : Option (List Char) :=
  match Playfair.bigramify ciphertext with
  | none => none
  | some bigrams => self.decrypt_go bigrams

/-- The seed of the Wikipedia example, `"playfair example"`. -/
def wiki_seed : List Char :=
  ['p', 'l', 'a', 'y', 'f', 'a', 'i', 'r', ' ', 'e', 'x', 'a', 'm', 'p', 'l', 'e']

/-- `"hide the gold in the tree stump"`. -/
def wiki_plain : List Char :=
  ['h', 'i', 'd', 'e', ' ', 't', 'h', 'e', ' ', 'g', 'o', 'l', 'd', ' ',
   'i', 'n', ' ', 't', 'h', 'e', ' ', 't', 'r', 'e', 'e', ' ', 's', 't',
   'u', 'm', 'p']

/-- `"bmodzbxdnabekudmuixmmouvif"`. -/
def wiki_cipher : List Char :=
  ['b', 'm', 'o', 'd', 'z', 'b', 'x', 'd', 'n', 'a', 'b', 'e', 'k', 'u',
   'd', 'm', 'u', 'i', 'x', 'm', 'm', 'o', 'u', 'v', 'i', 'f']

/-- `"hidethegoldinthetrexestump"`. -/
def wiki_decrypted : List Char :=
  ['h', 'i', 'd', 'e', 't', 'h', 'e', 'g', 'o', 'l', 'd', 'i', 'n', 't',
   'h', 'e', 't', 'r', 'e', 'x', 'e', 's', 't', 'u', 'm', 'p']

/-- The keyword the source's `test_keyword_wiki_example` expects,
`"playfirexmbcdghknoqstuvwz"`. -/
def wiki_keyword : List Char :=
  ['p', 'l', 'a', 'y', 'f', 'i', 'r', 'e', 'x', 'm', 'b', 'c', 'd', 'g',
   'h', 'k', 'n', 'o', 'q', 's', 't', 'u', 'v', 'w', 'z']

/-- `'é'` (U+00E9), a lowercase non-ASCII letter:
`is_alphabetic` holds and `to_lowercase` leaves it unchanged, exactly as
in Rust. -/
def e_acute : Char := 'é'

/-- `m` is a 5×5 matrix whose cell `(r, c)` holds the keyword symbol of
sequence index `5*c + r` — the layout `Keyword::to_matrix` produces for
an ASCII keyword of at most 25 characters (`getD` past the keyword
returns the `'\0'` left by `init_matrix`). -/
def matrix_models (kw : List Char) (m : PMatrix) : Prop :=
  m.length = 5 ∧ (∀ r, r < 5 → (m.getD r []).length = 5) ∧
    ∀ r c, r < 5 → c < 5 → entry m r c = kw.getD (5 * c + r) '\x00'

/-- Interleave a list of bigrams back into a string (the shape of the
output buffer built by the encrypt/decrypt loops). -/
def flatten_pairs : List Bigram → List Char
  | [] => []
  | bg :: rest => bg.1 :: bg.2 :: flatten_pairs rest

/-! ## Character-level facts -/

theorem char_toNat_inj {a b : Char} (h : a.toNat = b.toNat) : a = b := by
  have h2 := congrArg Char.ofNat h
  simpa using h2

theorem char_eq_iff {a b : Char} : a = b ↔ a.toNat = b.toNat :=
  ⟨fun h => h ▸ rfl, char_toNat_inj⟩

theorem char_toNat_ofNat {n : Nat} (h : n < 55296) : (Char.ofNat n).toNat = n := by
  have hv : n.isValidChar := Or.inl h
  simp only [Char.ofNat]
  rw [dif_pos hv]
  rfl

theorem utf8Size_eq_one {c : Char} (h : c.toNat < 128) : c.utf8Size = 1 := by
  have hle : c.val ≤ UInt32.ofNatCore 127 Char.utf8Size.proof_1 := by
    rw [UInt32.le_def, BitVec.le_def]
    show c.toNat ≤ 127
    omega
  simp only [Char.utf8Size]
  rw [if_pos hle]

theorem mem_alphabet_iff {c : Char} :
    c ∈ alphabet ↔ 97 ≤ c.toNat ∧ c.toNat ≤ 122 ∧ c.toNat ≠ 106 := by
  simp [alphabet, char_eq_iff]
  omega

theorem is_alphabetic_iff {c : Char} :
    is_alphabetic c = true ↔
      (97 ≤ c.toNat ∧ c.toNat ≤ 122) ∨ (65 ≤ c.toNat ∧ c.toNat ≤ 90) ∨
      c.toNat = 170 ∨ c.toNat = 181 ∨ c.toNat = 186 ∨
      (192 ≤ c.toNat ∧ c.toNat ≤ 255 ∧ c.toNat ≠ 215 ∧ c.toNat ≠ 247) := by
  simp [is_alphabetic]
  omega

theorem to_lowercase_toNat_of_lt {c : Char} (h : c.toNat < 256) :
    (to_lowercase c).toNat =
      if (65 ≤ c.toNat ∧ c.toNat ≤ 90) ∨ (192 ≤ c.toNat ∧ c.toNat ≤ 222 ∧ c.toNat ≠ 215)
      then c.toNat + 32 else c.toNat := by
  unfold to_lowercase
  split
  · next hcond =>
    simp at hcond
    rw [if_pos (by omega), char_toNat_ofNat (by omega)]
  · next hcond =>
    simp at hcond
    rw [if_neg (by omega)]

theorem to_lowercase_eq_self {c : Char} (h1 : 97 ≤ c.toNat) (h2 : c.toNat ≤ 191) :
    to_lowercase c = c := by
  unfold to_lowercase
  rw [if_neg]
  simp
  omega

/-! ## List access helpers -/

theorem getD_ne_of_nodup {l : List Char} (hnd : l.Nodup) {m n : Nat} (hm : m < l.length)
    (hn : n < l.length) (hmn : m ≠ n) (d : Char) : l.getD m d ≠ l.getD n d := by
  rw [List.getD_eq_getElem l d hm, List.getD_eq_getElem l d hn]
  intro h
  exact hmn ((List.Nodup.getElem_inj_iff hnd).mp h)

theorem getD_mem {l : List Char} {n : Nat} (h : n < l.length) (d : Char) :
    l.getD n d ∈ l := by
  rw [List.getD_eq_getElem l d h]
  exact List.getElem_mem h

theorem mem_iff_getD {l : List Char} {c : Char} (d : Char) :
    c ∈ l ↔ ∃ n, ∃ _ : n < l.length, l.getD n d = c := by
  constructor
  · intro h
    obtain ⟨n, hn, rfl⟩ := List.getElem_of_mem h
    exact ⟨n, hn, List.getD_eq_getElem l d hn⟩
  · rintro ⟨n, hn, rfl⟩
    exact getD_mem hn d

/-! ## Keyword construction facts -/

theorem mem_foldl_push_new (l : List Char) :
    ∀ acc c, c ∈ l.foldl push_new acc ↔ c ∈ acc ∨ c ∈ l := by
  induction l with
  | nil => simp
  | cons a rest ih =>
    intro acc c
    rw [List.foldl_cons, ih]
    unfold push_new
    by_cases ha : a ∈ acc
    · rw [if_pos ha]
      simp only [List.mem_cons]
      constructor
      · rintro (h | h)
        · exact Or.inl h
        · exact Or.inr (Or.inr h)
      · rintro (h | rfl | h)
        · exact Or.inl h
        · exact Or.inl ha
        · exact Or.inr h
    · rw [if_neg ha]
      simp only [List.mem_append, List.mem_cons, List.not_mem_nil, or_false]
      constructor
      · rintro ((h | rfl) | h)
        · exact Or.inl h
        · exact Or.inr (Or.inl rfl)
        · exact Or.inr (Or.inr h)
      · rintro (h | rfl | h)
        · exact Or.inl (Or.inl h)
        · exact Or.inl (Or.inr rfl)
        · exact Or.inr h

theorem nodup_foldl_push_new (l : List Char) :
    ∀ acc, acc.Nodup → (l.foldl push_new acc).Nodup := by
  induction l with
  | nil => intro acc h; exact h
  | cons a rest ih =>
    intro acc h
    rw [List.foldl_cons]
    apply ih
    unfold push_new
    by_cases ha : a ∈ acc
    · rwa [if_pos ha]
    · rw [if_neg ha, List.nodup_append]
      refine ⟨h, List.nodup_singleton a, ?_⟩
      intro x hx hxa
      rw [List.mem_singleton] at hxa
      subst hxa
      exact ha hx

theorem keyword_new_nodup (s : List Char) : (Keyword.new s).Nodup :=
  nodup_foldl_push_new _ [] List.nodup_nil

theorem mem_keyword_new (s : List Char) (c : Char) :
    c ∈ Keyword.new s ↔
      c ∈ (s.map to_lowercase).filter (fun x => is_alphabetic x && x != 'j') ∨ c ∈ alphabet := by
  unfold Keyword.new
  rw [mem_foldl_push_new]
  simp

theorem filtered_mem_alphabet {s : List Char} (hs : ∀ c ∈ s, c.toNat < 128) {c : Char}
    (hc : c ∈ (s.map to_lowercase).filter (fun x => is_alphabetic x && x != 'j')) :
    c ∈ alphabet := by
  rw [List.mem_filter] at hc
  obtain ⟨hmem, hpred⟩ := hc
  rw [List.mem_map] at hmem
  obtain ⟨c0, hc0, rfl⟩ := hmem
  have h0 : c0.toNat < 128 := hs c0 hc0
  simp only [Bool.and_eq_true, bne_iff_ne] at hpred
  obtain ⟨halpha, hne⟩ := hpred
  rw [is_alphabetic_iff] at halpha
  have hj : ('j' : Char).toNat = 106 := by decide
  have hnej : (to_lowercase c0).toNat ≠ 106 := by
    intro hh
    exact hne (char_toNat_inj (by rw [hh, hj]))
  have hlow := to_lowercase_toNat_of_lt (c := c0) (by omega)
  rw [mem_alphabet_iff]
  split at hlow <;> omega

theorem mem_keyword_ascii {s : List Char} (hs : ∀ c ∈ s, c.toNat < 128) (c : Char) :
    c ∈ Keyword.new s ↔ c ∈ alphabet := by
  rw [mem_keyword_new]
  constructor
  · rintro (h | h)
    · exact filtered_mem_alphabet hs h
    · exact h
  · exact Or.inr

theorem alphabet_ascii {c : Char} (h : c ∈ alphabet) : c.toNat < 128 := by
  rw [mem_alphabet_iff] at h
  omega

theorem keyword_length_ascii {s : List Char} (hs : ∀ c ∈ s, c.toNat < 128) :
    (Keyword.new s).length = 25 := by
  have hperm : (Keyword.new s).Perm alphabet := by
    rw [List.perm_ext_iff_of_nodup (keyword_new_nodup s) (by decide)]
    exact mem_keyword_ascii hs
  rw [hperm.length_eq]
  rfl

/-! ## Matrix construction facts -/

theorem getD_set_eq {α : Type} {l : List α} {i : Nat} (h : i < l.length) (x d : α) :
    (l.set i x).getD i d = x := by
  rw [List.getD_eq_getElem _ d (by simpa using h)]
  exact List.getElem_set_self (by simpa using h)

theorem getD_set_ne {α : Type} {l : List α} {i j : Nat} (hij : i ≠ j) (x d : α) :
    (l.set i x).getD j d = l.getD j d := by
  by_cases hj : j < l.length
  · rw [List.getD_eq_getElem _ d (by simpa using hj), List.getD_eq_getElem _ d hj]
    exact List.getElem_set_ne hij _
  · rw [List.getD_eq_default _ d (by simp; omega), List.getD_eq_default _ d (by omega)]

theorem entry_set2d_eq {m : PMatrix} {i j : Nat} (hi : i < m.length)
    (hj : j < (m.getD i []).length) (c : Char) :
    entry (set2d m i j c) i j = c := by
  unfold entry set2d
  rw [getD_set_eq hi, getD_set_eq hj]

theorem entry_set2d_ne {m : PMatrix} {i j r s : Nat} (hi : i < m.length)
    (h : ¬(i = r ∧ j = s)) (c : Char) :
    entry (set2d m i j c) r s = entry m r s := by
  unfold entry set2d
  by_cases hir : i = r
  · subst hir
    have hjs : j ≠ s := fun hh => h ⟨rfl, hh⟩
    rw [getD_set_eq hi, getD_set_ne hjs]
  · rw [getD_set_ne hir]

theorem set2d_length {m : PMatrix} {i j : Nat} (c : Char) :
    (set2d m i j c).length = m.length := by
  unfold set2d
  exact List.length_set ..

theorem set2d_row_length {m : PMatrix} {i j : Nat} (hi : i < m.length) (c : Char) (r : Nat) :
    ((set2d m i j c).getD r []).length = (m.getD r []).length := by
  unfold set2d
  by_cases hir : i = r
  · subst hir
    rw [getD_set_eq hi]
    exact List.length_set ..
  · rw [getD_set_ne hir]

theorem to_matrix_go_spec :
    ∀ (kw : List Char) (idx : Nat) (m : PMatrix),
      (∀ c ∈ kw, c.toNat < 128) → idx + kw.length ≤ 25 →
      m.length = 5 → (∀ r, r < 5 → (m.getD r []).length = 5) →
      ∃ M, Keyword.to_matrix_go kw idx m = some M ∧
        M.length = 5 ∧ (∀ r, r < 5 → (M.getD r []).length = 5) ∧
        ∀ r c, r < 5 → c < 5 →
          entry M r c = if idx ≤ 5 * c + r ∧ 5 * c + r < idx + kw.length
                        then kw.getD (5 * c + r - idx) '\x00' else entry m r c := by
  intro kw
  induction kw with
  | nil =>
    intro idx m _ _ hlen hrows
    refine ⟨m, rfl, hlen, hrows, ?_⟩
    intro r c _ _
    rw [if_neg (by simp)]
  | cons ch rest ih =>
    intro idx m hascii hbound hlen hrows
    have hbound' : idx + (rest.length + 1) ≤ 25 := by
      simpa using hbound
    have hsize : ch.utf8Size = 1 := utf8Size_eq_one (hascii ch (by simp))
    have hidx : idx / 5 < 5 := by omega
    have hmod : idx % 5 < 5 := Nat.mod_lt _ (by omega)
    have hsetlen : (set2d m (idx % 5) (idx / 5) ch).length = 5 := by
      rw [set2d_length]; exact hlen
    have hsetrows : ∀ r, r < 5 → ((set2d m (idx % 5) (idx / 5) ch).getD r []).length = 5 := by
      intro r hr
      rw [set2d_row_length (by omega)]
      exact hrows r hr
    obtain ⟨M, hM, h1, h2, h3⟩ :=
      ih (idx + 1) (set2d m (idx % 5) (idx / 5) ch)
        (fun c hc => hascii c (by simp [hc])) (by omega) hsetlen hsetrows
    refine ⟨M, ?_, h1, h2, ?_⟩
    · rw [show Keyword.to_matrix_go (ch :: rest) idx m =
            (if idx / 5 < 5 then
              Keyword.to_matrix_go rest (idx + ch.utf8Size) (set2d m (idx % 5) (idx / 5) ch)
            else none) from rfl]
      rw [if_pos hidx, hsize]
      exact hM
    · intro r c hr hc
      rw [h3 r c hr hc]
      rw [List.length_cons]
      by_cases hlt : 5 * c + r < idx
      · rw [if_neg (by omega), if_neg (by omega)]
        apply entry_set2d_ne (by omega)
        rintro ⟨rfl, rfl⟩
        omega
      · by_cases heq : 5 * c + r = idx
        · rw [if_neg (by omega), if_pos (by omega)]
          have h0 : 5 * c + r - idx = 0 := by omega
          rw [h0, List.getD_cons_zero]
          have hr' : idx % 5 = r := by omega
          have hc' : idx / 5 = c := by omega
          rw [← hr', ← hc']
          exact entry_set2d_eq (by omega) (by rw [hrows (idx % 5) hmod]; omega) ch
        · by_cases hin : 5 * c + r < idx + 1 + rest.length
          · rw [if_pos (by omega), if_pos (by omega)]
            have hsucc : 5 * c + r - idx = (5 * c + r - (idx + 1)) + 1 := by omega
            rw [hsucc, List.getD_cons_succ]
          · rw [if_neg (by omega), if_neg (by omega)]
            apply entry_set2d_ne (by omega)
            rintro ⟨rfl, rfl⟩
            omega

theorem to_matrix_spec {kw : List Char} (hascii : ∀ c ∈ kw, c.toNat < 128)
    (hlen : kw.length ≤ 25) :
    ∃ M, Keyword.to_matrix kw = some M ∧ matrix_models kw M := by
  have hinit_rows : ∀ r, r < 5 → ((init_matrix : PMatrix).getD r []).length = 5 := by
    intro r hr
    interval_cases r <;> rfl
  obtain ⟨M, hM, h1, h2, h3⟩ :=
    to_matrix_go_spec kw 0 init_matrix hascii (by omega) rfl hinit_rows
  refine ⟨M, hM, h1, h2, ?_⟩
  intro r c hr hc
  rw [h3 r c hr hc]
  by_cases hin : 5 * c + r < kw.length
  · rw [if_pos (by omega)]
    simp only [Nat.sub_zero]
  · rw [if_neg (by omega), List.getD_eq_default _ _ (by omega)]
    show entry init_matrix r c = '\x00'
    interval_cases r <;> interval_cases c <;> rfl

/-! ## Position lookup facts -/

theorem find_in_row_eq_none {row : List Char} {t : Char} (h : t ∉ row) :
    ∀ j0, find_in_row row j0 t = none := by
  induction row with
  | nil => intro j0; rfl
  | cons c rest ih =>
    intro j0
    show (if t = c then some j0 else find_in_row rest (j0 + 1) t) = none
    rw [if_neg (fun hh => h (by rw [hh]; exact List.mem_cons_self c rest))]
    exact ih (fun hr => h (List.mem_cons_of_mem c hr)) (j0 + 1)

theorem find_in_row_eq_some {row : List Char} {t : Char} :
    ∀ {j : Nat}, j < row.length → row.getD j '\x00' = t →
      (∀ k, k < j → row.getD k '\x00' ≠ t) →
      ∀ j0, find_in_row row j0 t = some (j0 + j) := by
  induction row with
  | nil => intro j hj; simp at hj
  | cons c rest ih =>
    intro j hj ht hfirst j0
    show (if t = c then some j0 else find_in_row rest (j0 + 1) t) = some (j0 + j)
    cases j with
    | zero =>
      rw [List.getD_cons_zero] at ht
      rw [if_pos ht.symm]
      simp
    | succ jj =>
      have hne : t ≠ c := by
        have h0 := hfirst 0 (by omega)
        rw [List.getD_cons_zero] at h0
        exact fun hh => h0 hh.symm
      rw [if_neg hne]
      have hrec := ih (j := jj) (by simpa using hj) (by simpa using ht)
        (fun k hk => by simpa using hfirst (k + 1) (by omega)) (j0 + 1)
      rw [hrec]
      congr 1
      omega

theorem find_in_matrix_skip {t : Char} :
    ∀ (M : PMatrix) (r : Nat), r < M.length → ∀ (i0 : Nat),
      (∀ i, i < r → t ∉ M.getD i []) →
      ∀ j, find_in_row (M.getD r []) 0 t = some j →
      find_in_matrix M i0 t = some (i0 + r, j) := by
  intro M
  induction M with
  | nil => intro r hr; simp at hr
  | cons row rest ih =>
    intro r hr i0 hskip j hrow
    show (match find_in_row row 0 t with
          | some jdx => some (i0, jdx)
          | none => find_in_matrix rest (i0 + 1) t) = some (i0 + r, j)
    cases r with
    | zero =>
      rw [List.getD_cons_zero] at hrow
      rw [hrow]
      simp
    | succ rr =>
      have hnone : find_in_row row 0 t = none := by
        apply find_in_row_eq_none
        have h0 := hskip 0 (by omega)
        simpa using h0
      rw [hnone]
      have hrec := ih rr (by rw [List.length_cons] at hr; omega) (i0 + 1)
        (fun i hi => by simpa using hskip (i + 1) (by omega)) j (by simpa using hrow)
      have harith : i0 + (rr + 1) = i0 + 1 + rr := by omega
      rw [harith]
      exact hrec

theorem find_position_keyword {kw : List Char} (hnd : kw.Nodup) (hlen : kw.length = 25)
    {M : PMatrix} (hM : matrix_models kw M) {r c : Nat} (hr : r < 5) (hc : c < 5) :
    find_in_matrix M 0 (kw.getD (5 * c + r) '\x00') = some (r, c) := by
  obtain ⟨hMlen, hMrows, hent⟩ := hM
  have hrow : find_in_row (M.getD r []) 0 (kw.getD (5 * c + r) '\x00') = some (0 + c) := by
    apply find_in_row_eq_some (j := c) (by rw [hMrows r hr]; omega)
    · exact hent r c hr hc
    · intro k hk
      have hk5 : k < 5 := by omega
      rw [show (M.getD r []).getD k '\x00' = entry M r k from rfl, hent r k hr hk5]
      exact getD_ne_of_nodup hnd (by omega) (by omega) (by omega) _
  have hmain := find_in_matrix_skip M r (by omega) 0 ?_ (0 + c) hrow
  · simpa using hmain
  · intro i hi hmem
    have hi5 : i < 5 := by omega
    rw [mem_iff_getD '\x00'] at hmem
    obtain ⟨n, hn, hval⟩ := hmem
    rw [hMrows i hi5] at hn
    rw [show (M.getD i []).getD n '\x00' = entry M i n from rfl, hent i n hi5 hn] at hval
    have := getD_ne_of_nodup hnd (m := 5 * n + i) (n := 5 * c + r)
      (by omega) (by omega) (by omega) '\x00'
    exact this hval

theorem get_position_spec {kw : List Char} (hnd : kw.Nodup) (hlen : kw.length = 25)
    (pf : Playfair) (hM : matrix_models kw pf.matrix) {r c : Nat} (hr : r < 5) (hc : c < 5) :
    pf.get_position_in_matrix (kw.getD (5 * c + r) '\x00') = some (r, c) := by
  unfold Playfair.get_position_in_matrix
  rw [find_position_keyword hnd hlen hM hr hc]

/-! ## Bigram substitution facts -/

theorem sub_one_or_four_succ_mod {n : Nat} (hn : n < 5) :
    sub_one_or_four ((n + 1) % 5) = n := by
  interval_cases n <;> rfl

theorem mem_keyword_repr {kw : List Char} (hlen : kw.length = 25) {a : Char} (ha : a ∈ kw) :
    ∃ r c, r < 5 ∧ c < 5 ∧ kw.getD (5 * c + r) '\x00' = a := by
  rw [mem_iff_getD '\x00'] at ha
  obtain ⟨n, hn, hval⟩ := ha
  refine ⟨n % 5, n / 5, by omega, by omega, ?_⟩
  rw [show 5 * (n / 5) + n % 5 = n by omega]
  exact hval

theorem encrypt_pair_eval (pf : Playfair) {a b : Char} {pa pb : Position}
    (hga : pf.get_position_in_matrix a = some pa)
    (hgb : pf.get_position_in_matrix b = some pb) :
    pf.encrypt_pair (a, b) =
      if pa.1 = pb.1 then
        some [entry pf.matrix pa.1 ((pa.2 + 1) % 5), entry pf.matrix pb.1 ((pb.2 + 1) % 5)]
      else if pa.2 = pb.2 then
        some [entry pf.matrix ((pa.1 + 1) % 5) pa.2, entry pf.matrix ((pb.1 + 1) % 5) pb.2]
      else
        some [entry pf.matrix pb.1 pa.2, entry pf.matrix pa.1 pb.2] := by
  unfold Playfair.encrypt_pair
  rw [show ((a, b) : Bigram).1 = a from rfl, show ((a, b) : Bigram).2 = b from rfl, hga, hgb]

theorem decrypt_pair_eval (pf : Playfair) {a b : Char} {pa pb : Position}
    (hga : pf.get_position_in_matrix a = some pa)
    (hgb : pf.get_position_in_matrix b = some pb) :
    pf.decrypt_pair (a, b) =
      if pa.1 = pb.1 then
        some [entry pf.matrix pa.1 (sub_one_or_four pa.2), entry pf.matrix pb.1 (sub_one_or_four pb.2)]
      else if pa.2 = pb.2 then
        some [entry pf.matrix (sub_one_or_four pa.1) pa.2, entry pf.matrix (sub_one_or_four pb.1) pb.2]
      else
        some [entry pf.matrix pb.1 pa.2, entry pf.matrix pa.1 pb.2] := by
  unfold Playfair.decrypt_pair
  rw [show ((a, b) : Bigram).1 = a from rfl, show ((a, b) : Bigram).2 = b from rfl, hga, hgb]

theorem pair_roundtrip {kw : List Char} (hnd : kw.Nodup) (hlen : kw.length = 25)
    (pf : Playfair) (hM : matrix_models kw pf.matrix) {a b : Char}
    (ha : a ∈ kw) (hb : b ∈ kw) (hab : a ≠ b) :
    ∃ c d, pf.encrypt_pair (a, b) = some [c, d] ∧ c ∈ kw ∧ d ∈ kw ∧ c ≠ d ∧
      pf.decrypt_pair (c, d) = some [a, b] := by
  obtain ⟨ra, ca, hra, hca, hva⟩ := mem_keyword_repr hlen ha
  obtain ⟨rb, cb, hrb, hcb, hvb⟩ := mem_keyword_repr hlen hb
  have hent := hM.2.2
  have hga : pf.get_position_in_matrix a = some (ra, ca) := by
    rw [← hva]
    exact get_position_spec hnd hlen pf hM hra hca
  have hgb : pf.get_position_in_matrix b = some (rb, cb) := by
    rw [← hvb]
    exact get_position_spec hnd hlen pf hM hrb hcb
  have hcell : ¬(ra = rb ∧ ca = cb) := by
    rintro ⟨rfl, rfl⟩
    exact hab (hva.symm.trans hvb)
  rw [encrypt_pair_eval pf hga hgb]
  by_cases hrr : ra = rb
  · -- the code's first branch: equal outer indices
    have hcc : ca ≠ cb := fun hh => hcell ⟨hrr, hh⟩
    subst hrr
    rw [if_pos rfl]
    have h1lt : (ca + 1) % 5 < 5 := Nat.mod_lt _ (by omega)
    have h2lt : (cb + 1) % 5 < 5 := Nat.mod_lt _ (by omega)
    refine ⟨_, _, rfl, ?_, ?_, ?_, ?_⟩
    · rw [hent ra ((ca + 1) % 5) hra h1lt]
      exact getD_mem (by omega) _
    · rw [hent ra ((cb + 1) % 5) hra h2lt]
      exact getD_mem (by omega) _
    · rw [hent ra ((ca + 1) % 5) hra h1lt, hent ra ((cb + 1) % 5) hra h2lt]
      exact getD_ne_of_nodup hnd (by omega) (by omega) (by omega) _
    · have hgc : pf.get_position_in_matrix (entry pf.matrix ra ((ca + 1) % 5)) =
          some (ra, (ca + 1) % 5) := by
        rw [hent ra ((ca + 1) % 5) hra h1lt]
        exact get_position_spec hnd hlen pf hM hra h1lt
      have hgd : pf.get_position_in_matrix (entry pf.matrix ra ((cb + 1) % 5)) =
          some (ra, (cb + 1) % 5) := by
        rw [hent ra ((cb + 1) % 5) hra h2lt]
        exact get_position_spec hnd hlen pf hM hra h2lt
      rw [decrypt_pair_eval pf hgc hgd, if_pos rfl]
      show some [entry pf.matrix ra (sub_one_or_four ((ca + 1) % 5)),
                 entry pf.matrix ra (sub_one_or_four ((cb + 1) % 5))] = some [a, b]
      rw [sub_one_or_four_succ_mod hca, sub_one_or_four_succ_mod hcb]
      rw [hent ra ca hra hca, hent ra cb hra hcb, hva, hvb]
  · by_cases hcc : ca = cb
    · -- the code's second branch: equal inner indices
      subst hcc
      rw [if_neg hrr, if_pos rfl]
      have h1lt : (ra + 1) % 5 < 5 := Nat.mod_lt _ (by omega)
      have h2lt : (rb + 1) % 5 < 5 := Nat.mod_lt _ (by omega)
      refine ⟨_, _, rfl, ?_, ?_, ?_, ?_⟩
      · rw [hent ((ra + 1) % 5) ca h1lt hca]
        exact getD_mem (by omega) _
      · rw [hent ((rb + 1) % 5) ca h2lt hca]
        exact getD_mem (by omega) _
      · rw [hent ((ra + 1) % 5) ca h1lt hca, hent ((rb + 1) % 5) ca h2lt hca]
        exact getD_ne_of_nodup hnd (by omega) (by omega) (by omega) _
      · have hgc : pf.get_position_in_matrix (entry pf.matrix ((ra + 1) % 5) ca) =
            some ((ra + 1) % 5, ca) := by
          rw [hent ((ra + 1) % 5) ca h1lt hca]
          exact get_position_spec hnd hlen pf hM h1lt hca
        have hgd : pf.get_position_in_matrix (entry pf.matrix ((rb + 1) % 5) ca) =
            some ((rb + 1) % 5, ca) := by
          rw [hent ((rb + 1) % 5) ca h2lt hca]
          exact get_position_spec hnd hlen pf hM h2lt hca
        rw [decrypt_pair_eval pf hgc hgd, if_neg (by simp; omega), if_pos rfl]
        show some [entry pf.matrix (sub_one_or_four ((ra + 1) % 5)) ca,
                   entry pf.matrix (sub_one_or_four ((rb + 1) % 5)) ca] = some [a, b]
        rw [sub_one_or_four_succ_mod hra, sub_one_or_four_succ_mod hrb]
        rw [hent ra ca hra hca, hent rb ca hrb hca, hva, hvb]
    · -- the code's third branch: the rectangle case
      rw [if_neg hrr, if_neg hcc]
      refine ⟨_, _, rfl, ?_, ?_, ?_, ?_⟩
      · rw [hent rb ca hrb hca]
        exact getD_mem (by omega) _
      · rw [hent ra cb hra hcb]
        exact getD_mem (by omega) _
      · rw [hent rb ca hrb hca, hent ra cb hra hcb]
        exact getD_ne_of_nodup hnd (by omega) (by omega) (by omega) _
      · have hgc : pf.get_position_in_matrix (entry pf.matrix rb ca) = some (rb, ca) := by
          rw [hent rb ca hrb hca]
          exact get_position_spec hnd hlen pf hM hrb hca
        have hgd : pf.get_position_in_matrix (entry pf.matrix ra cb) = some (ra, cb) := by
          rw [hent ra cb hra hcb]
          exact get_position_spec hnd hlen pf hM hra hcb
        rw [decrypt_pair_eval pf hgc hgd, if_neg (fun hh => hrr hh.symm), if_neg hcc]
        show some [entry pf.matrix ra ca, entry pf.matrix rb cb] = some [a, b]
        rw [hent ra ca hra hca, hent rb cb hrb hcb, hva, hvb]

/-! ## Bigram segmentation facts -/

theorem two_step_ind {P : List Char → Prop} (h0 : P []) (h1 : ∀ a, P [a])
    (h2 : ∀ a b rest, P rest → P (a :: b :: rest)) : ∀ s, P s
  | [] => h0
  | [a] => h1 a
  | a :: b :: rest => h2 a b rest (two_step_ind h0 h1 h2 rest)

theorem to_lowercase_alphabet {c : Char} (h : c ∈ alphabet) : to_lowercase c = c := by
  rw [mem_alphabet_iff] at h
  exact to_lowercase_eq_self (by omega) (by omega)

theorem is_alphabetic_alphabet {c : Char} (h : c ∈ alphabet) : is_alphabetic c = true := by
  rw [mem_alphabet_iff] at h
  rw [is_alphabetic_iff]
  omega

theorem utf8_len_ascii {s : List Char} (h : ∀ c ∈ s, c.toNat < 128) :
    utf8_len s = s.length := by
  induction s with
  | nil => rfl
  | cons c rest ih =>
    unfold utf8_len at *
    simp only [List.map_cons, List.sum_cons]
    rw [utf8Size_eq_one (h c (by simp)), ih (fun x hx => h x (by simp [hx])),
        List.length_cons]
    omega

theorem filter_map_id {s : List Char} (h : ∀ c ∈ s, c ∈ alphabet) :
    (s.map to_lowercase).filter (fun c => is_alphabetic c) = s := by
  induction s with
  | nil => rfl
  | cons c rest ih =>
    simp only [List.map_cons, List.filter_cons]
    rw [to_lowercase_alphabet (h c (by simp))]
    rw [if_pos (by simpa using is_alphabetic_alphabet (h c (by simp)))]
    rw [ih (fun x hx => h x (by simp [hx]))]

theorem mem_step2_indices {stop i : Nat} (h : i ∈ step2_indices stop) :
    i % 2 = 0 ∧ i < stop := by
  unfold step2_indices at h
  rw [List.mem_range'] at h
  obtain ⟨k, hk, rfl⟩ := h
  omega

theorem bigram_loop_cons_ne {s : List Char} {i : Nat} {a : Char} {rest : List Nat}
    (ha : s.get? i = some a)
    (hne : ∀ b, s.get? (i + 1) = some b → a ≠ b) :
    Playfair.bigram_loop s (i :: rest) = Playfair.bigram_loop s rest := by
  show (match s.get? i with
        | none => none
        | some a =>
          match s.get? (i + 1) with
          | some b =>
            if a = b then
              match insert_at_byte s (i + 1) with
              | none => none
              | some s' => Playfair.bigram_loop s' rest
            else Playfair.bigram_loop s rest
          | none => Playfair.bigram_loop s rest) = Playfair.bigram_loop s rest
  rw [ha]
  cases hb : s.get? (i + 1) with
  | none => rfl
  | some b =>
    show (if a = b then
            match insert_at_byte s (i + 1) with
            | none => none
            | some s' => Playfair.bigram_loop s' rest
          else Playfair.bigram_loop s rest) = Playfair.bigram_loop s rest
    rw [if_neg (hne b hb)]

theorem bigram_loop_no_insert {s : List Char}
    (hpairs : ∀ k a b, k % 2 = 0 → s.get? k = some a → s.get? (k + 1) = some b → a ≠ b) :
    ∀ idxs : List Nat, (∀ i ∈ idxs, i % 2 = 0 ∧ i < s.length) →
      Playfair.bigram_loop s idxs = some s := by
  intro idxs
  induction idxs with
  | nil => intro _; rfl
  | cons i rest ih =>
    intro h
    obtain ⟨heven, hlt⟩ := h i (List.mem_cons_self i rest)
    have ha : s.get? i = some (s.get ⟨i, hlt⟩) := List.get?_eq_get hlt
    rw [bigram_loop_cons_ne ha (fun b hb => hpairs i _ b heven ha hb)]
    exact ih (fun j hj => h j (List.mem_cons_of_mem i hj))

theorem chunk_flatten (l : List Bigram) : chunk_pairs (flatten_pairs l) = l := by
  induction l with
  | nil => rfl
  | cons bg rest ih =>
    show (bg.1, bg.2) :: chunk_pairs (flatten_pairs rest) = bg :: rest
    rw [ih]

theorem flatten_chunk : ∀ s : List Char, s.length % 2 = 0 → flatten_pairs (chunk_pairs s) = s := by
  apply two_step_ind (P := fun s => s.length % 2 = 0 → flatten_pairs (chunk_pairs s) = s)
  · intro _
    rfl
  · intro a h
    exfalso
    simp at h
  · intro a b rest ih h
    show a :: b :: flatten_pairs (chunk_pairs rest) = a :: b :: rest
    rw [ih (by rw [List.length_cons, List.length_cons] at h; omega)]

theorem chunk_pairs_mem : ∀ s : List Char, ∀ bg ∈ chunk_pairs s, bg.1 ∈ s ∧ bg.2 ∈ s := by
  apply two_step_ind (P := fun s => ∀ bg ∈ chunk_pairs s, bg.1 ∈ s ∧ bg.2 ∈ s)
  · intro bg h
    simp [chunk_pairs] at h
  · intro a bg h
    simp [chunk_pairs] at h
  · intro a b rest ih bg hbg
    rw [show chunk_pairs (a :: b :: rest) = (a, b) :: chunk_pairs rest from rfl,
        List.mem_cons] at hbg
    rcases hbg with rfl | hbg
    · exact ⟨by simp, by simp⟩
    · obtain ⟨h1, h2⟩ := ih bg hbg
      exact ⟨by simp [h1], by simp [h2]⟩

theorem chunk_pairs_of_pos : ∀ s : List Char,
    (∀ k a b, k % 2 = 0 → s.get? k = some a → s.get? (k + 1) = some b → a ≠ b) →
    ∀ bg ∈ chunk_pairs s, bg.1 ≠ bg.2 := by
  apply two_step_ind (P := fun s =>
    (∀ k a b, k % 2 = 0 → s.get? k = some a → s.get? (k + 1) = some b → a ≠ b) →
    ∀ bg ∈ chunk_pairs s, bg.1 ≠ bg.2)
  · intro _ bg h
    simp [chunk_pairs] at h
  · intro a _ bg h
    simp [chunk_pairs] at h
  · intro a b rest ih hpos bg hbg
    rw [show chunk_pairs (a :: b :: rest) = (a, b) :: chunk_pairs rest from rfl,
        List.mem_cons] at hbg
    rcases hbg with rfl | hbg
    · exact hpos 0 a b rfl rfl rfl
    · apply ih ?_ bg hbg
      intro k x y hk hx hy
      exact hpos (k + 2) x y (by omega) (by simpa using hx) (by simpa using hy)

theorem pos_of_chunk_pairs : ∀ s : List Char, s.length % 2 = 0 →
    (∀ bg ∈ chunk_pairs s, bg.1 ≠ bg.2) →
    ∀ k a b, k % 2 = 0 → s.get? k = some a → s.get? (k + 1) = some b → a ≠ b := by
  apply two_step_ind (P := fun s => s.length % 2 = 0 →
    (∀ bg ∈ chunk_pairs s, bg.1 ≠ bg.2) →
    ∀ k a b, k % 2 = 0 → s.get? k = some a → s.get? (k + 1) = some b → a ≠ b)
  · intro _ _ k a b _ ha _
    simp at ha
  · intro c h
    exfalso
    simp at h
  · intro c d rest ih heven hch k a b hk ha hb
    match k, hk with
    | 0, _ =>
      rw [show (c :: d :: rest).get? 0 = some c from rfl] at ha
      rw [show (c :: d :: rest).get? 1 = some d from rfl] at hb
      injection ha with ha'
      injection hb with hb'
      subst ha'
      subst hb'
      exact hch (c, d) (by
        rw [show chunk_pairs (c :: d :: rest) = (c, d) :: chunk_pairs rest from rfl]
        simp)
    | (kk + 2), _ =>
      apply ih (by rw [List.length_cons, List.length_cons] at heven; omega)
        (fun bg hbg => hch bg (by rw [show chunk_pairs (c :: d :: rest) = (c, d) :: chunk_pairs rest from rfl]; simp [hbg]))
        kk a b (by omega) (by simpa using ha) (by simpa using hb)

theorem bigramify_clean {s : List Char} (hmem : ∀ c ∈ s, c ∈ alphabet)
    (heven : s.length % 2 = 0)
    (hpairs : ∀ k a b, k % 2 = 0 → s.get? k = some a → s.get? (k + 1) = some b → a ≠ b) :
    Playfair.bigramify s = some (chunk_pairs s) := by
  have hascii : ∀ c ∈ s, c.toNat < 128 := fun c hc => alphabet_ascii (hmem c hc)
  unfold Playfair.bigramify
  rw [filter_map_id hmem]
  show (match Playfair.bigram_loop s (step2_indices (utf8_len s)) with
        | none => none
        | some s2 =>
          some (chunk_pairs (if (utf8_len s2 % 2 != 0) = true then s2 ++ ['x'] else s2))) =
    some (chunk_pairs s)
  rw [utf8_len_ascii hascii]
  rw [bigram_loop_no_insert hpairs (step2_indices s.length)
      (fun i hi => mem_step2_indices hi)]
  show some (chunk_pairs (if (utf8_len s % 2 != 0) = true then s ++ ['x'] else s)) =
    some (chunk_pairs s)
  rw [utf8_len_ascii hascii, heven]
  simp

theorem go_roundtrip {kw : List Char} (hnd : kw.Nodup) (hlen : kw.length = 25)
    (pf : Playfair) (hM : matrix_models kw pf.matrix) :
    ∀ l : List Bigram,
      (∀ bg ∈ l, bg.1 ∈ kw ∧ bg.2 ∈ kw ∧ bg.1 ≠ bg.2) →
      ∃ q, pf.encrypt_go l = some q ∧ q.length = 2 * l.length ∧
        (∀ c ∈ q, c ∈ kw) ∧ (∀ bg ∈ chunk_pairs q, bg.1 ≠ bg.2) ∧
        pf.decrypt_go (chunk_pairs q) = some (flatten_pairs l) := by
  intro l
  induction l with
  | nil =>
    intro _
    exact ⟨[], rfl, rfl, by simp, by simp [chunk_pairs], rfl⟩
  | cons bg rest ih =>
    obtain ⟨b1, b2⟩ := bg
    intro hval
    obtain ⟨ha, hb, hab⟩ := hval (b1, b2) (List.mem_cons_self _ rest)
    dsimp only at ha hb hab
    obtain ⟨c, d, henc, hc, hd, hcd, hdec⟩ :=
      pair_roundtrip hnd hlen pf hM ha hb hab
    obtain ⟨q, hq, hqlen, hqmem, hqpairs, hqdec⟩ :=
      ih (fun x hx => hval x (List.mem_cons_of_mem _ hx))
    refine ⟨c :: d :: q, ?_, ?_, ?_, ?_, ?_⟩
    · show (match pf.encrypt_pair (b1, b2), pf.encrypt_go rest with
            | some out, some buf => some (out ++ buf)
            | _, _ => none) = some (c :: d :: q)
      rw [henc, hq]
      rfl
    · rw [List.length_cons, List.length_cons, List.length_cons, hqlen]
      omega
    · intro x hx
      rw [List.mem_cons, List.mem_cons] at hx
      rcases hx with rfl | rfl | hx
      · exact hc
      · exact hd
      · exact hqmem x hx
    · intro bg2 hbg2
      rw [show chunk_pairs (c :: d :: q) = (c, d) :: chunk_pairs q from rfl,
          List.mem_cons] at hbg2
      rcases hbg2 with rfl | hbg2
      · exact hcd
      · exact hqpairs bg2 hbg2
    · show (match pf.decrypt_pair (c, d), pf.decrypt_go (chunk_pairs q) with
            | some out, some buf => some (out ++ buf)
            | _, _ => none) = some (flatten_pairs ((b1, b2) :: rest))
      rw [hdec, hqdec]
      rfl

theorem playfair_new_spec {s : List Char} (hs : ∀ c ∈ s, c.toNat < 128) :
    ∃ pf : Playfair, Playfair.new s = some pf ∧ pf.keyword = Keyword.new s ∧
      matrix_models (Keyword.new s) pf.matrix := by
  have hascii : ∀ c ∈ Keyword.new s, c.toNat < 128 :=
    fun c hc => alphabet_ascii ((mem_keyword_ascii hs c).mp hc)
  obtain ⟨M, hM, hmod⟩ := to_matrix_spec hascii (by simp [keyword_length_ascii hs])
  refine ⟨⟨Keyword.new s, M⟩, ?_, rfl, hmod⟩
  show (Keyword.to_matrix (Keyword.new s)).map
      (fun matrix => (⟨Keyword.new s, matrix⟩ : Playfair)) =
    some (⟨Keyword.new s, M⟩ : Playfair)
  rw [hM]
  rfl

theorem encrypt_eval {pf : Playfair} {p : List Char} {bgs : List Bigram}
    (h : Playfair.bigramify p = some bgs) :
    pf.encrypt p = pf.encrypt_go bgs := by
  unfold Playfair.encrypt
  rw [h]

theorem decrypt_eval {pf : Playfair} {p : List Char} {bgs : List Bigram}
    (h : Playfair.bigramify p = some bgs) :
    pf.decrypt p = pf.decrypt_go bgs := by
  unfold Playfair.decrypt
  rw [h]

theorem roundtrip_core {seed p : List Char} {pf : Playfair}
    (hseed : ∀ c ∈ seed, c.toNat < 128)
    (hp : ∀ c ∈ p, c ∈ alphabet)
    (heven : p.length % 2 = 0)
    (hpairs : ∀ k a b, k % 2 = 0 → p.get? k = some a → p.get? (k + 1) = some b → a ≠ b)
    (hpf : Playfair.new seed = some pf) :
    (pf.encrypt p).bind pf.decrypt = some p := by
  obtain ⟨pf', hpf', hkw, hmod⟩ := playfair_new_spec hseed
  rw [hpf] at hpf'
  injection hpf' with heq
  subst heq
  have hnd : (Keyword.new seed).Nodup := keyword_new_nodup seed
  have hlen : (Keyword.new seed).length = 25 := keyword_length_ascii hseed
  have hbg : Playfair.bigramify p = some (chunk_pairs p) := bigramify_clean hp heven hpairs
  have hvalid : ∀ bg ∈ chunk_pairs p,
      bg.1 ∈ Keyword.new seed ∧ bg.2 ∈ Keyword.new seed ∧ bg.1 ≠ bg.2 := by
    intro bg hbg2
    obtain ⟨h1, h2⟩ := chunk_pairs_mem p bg hbg2
    exact ⟨(mem_keyword_ascii hseed _).mpr (hp _ h1),
           (mem_keyword_ascii hseed _).mpr (hp _ h2),
           chunk_pairs_of_pos p hpairs bg hbg2⟩
  obtain ⟨q, hq, hqlen, hqmem, hqpairs, hqdec⟩ :=
    go_roundtrip hnd hlen pf hmod (chunk_pairs p) hvalid
  rw [encrypt_eval hbg, hq]
  show pf.decrypt q = some p
  have hqeven : q.length % 2 = 0 := by rw [hqlen]; omega
  have hqalpha : ∀ c ∈ q, c ∈ alphabet :=
    fun c hc => (mem_keyword_ascii hseed c).mp (hqmem c hc)
  have hqpos := pos_of_chunk_pairs q hqeven hqpairs
  rw [decrypt_eval (bigramify_clean hqalpha hqeven hqpos), hqdec, flatten_chunk p heven]

/-! ## Fallback lookup facts -/

theorem find_in_matrix_eq_none {t : Char} :
    ∀ (M : PMatrix) (i0 : Nat), (∀ row ∈ M, t ∉ row) → find_in_matrix M i0 t = none := by
  intro M
  induction M with
  | nil => intro _ _; rfl
  | cons row rest ih =>
    intro i0 h
    show (match find_in_row row 0 t with
          | some jdx => some (i0, jdx)
          | none => find_in_matrix rest (i0 + 1) t) = none
    rw [find_in_row_eq_none (h row (by simp)) 0]
    exact ih (i0 + 1) (fun r hr => h r (by simp [hr]))

theorem find_in_row_isSome {row : List Char} {t : Char} (h : t ∈ row) :
    ∀ j0, ∃ j, find_in_row row j0 t = some j := by
  induction row with
  | nil => simp at h
  | cons c rest ih =>
    intro j0
    show ∃ j, (if t = c then some j0 else find_in_row rest (j0 + 1) t) = some j
    by_cases hc : t = c
    · exact ⟨j0, by rw [if_pos hc]⟩
    · rw [if_neg hc]
      rcases List.mem_cons.mp h with rfl | hrest
      · exact absurd rfl hc
      · exact ih hrest (j0 + 1)

theorem find_in_matrix_isSome {t : Char} :
    ∀ (M : PMatrix) (i0 : Nat), (∃ row ∈ M, t ∈ row) →
      ∃ p, find_in_matrix M i0 t = some p := by
  intro M
  induction M with
  | nil =>
    intro _ h
    simp at h
  | cons row rest ih =>
    intro i0 h
    show ∃ p, (match find_in_row row 0 t with
               | some jdx => some (i0, jdx)
               | none => find_in_matrix rest (i0 + 1) t) = some p
    cases hf : find_in_row row 0 t with
    | some j => exact ⟨(i0, j), rfl⟩
    | none =>
      obtain ⟨r, hr, hmem⟩ := h
      rcases List.mem_cons.mp hr with rfl | hr'
      · obtain ⟨j, hj⟩ := find_in_row_isSome hmem 0
        rw [hf] at hj
        exact absurd hj (by simp)
      · exact ih (i0 + 1) ⟨r, hr', hmem⟩

theorem encrypt_pair_congr_fst {pf : Playfair} {a a' : Char}
    (h : pf.get_position_in_matrix a = pf.get_position_in_matrix a') (b : Char) :
    pf.encrypt_pair (a, b) = pf.encrypt_pair (a', b) := by
  unfold Playfair.encrypt_pair
  rw [show ((a, b) : Bigram).1 = a from rfl, show ((a', b) : Bigram).1 = a' from rfl, h]

theorem encrypt_pair_congr_snd {pf : Playfair} {a a' : Char}
    (h : pf.get_position_in_matrix a = pf.get_position_in_matrix a') (b : Char) :
    pf.encrypt_pair (b, a) = pf.encrypt_pair (b, a') := by
  unfold Playfair.encrypt_pair
  rw [show ((b, a) : Bigram).2 = a from rfl, show ((b, a') : Bigram).2 = a' from rfl, h]

theorem decrypt_pair_congr_fst {pf : Playfair} {a a' : Char}
    (h : pf.get_position_in_matrix a = pf.get_position_in_matrix a') (b : Char) :
    pf.decrypt_pair (a, b) = pf.decrypt_pair (a', b) := by
  unfold Playfair.decrypt_pair
  rw [show ((a, b) : Bigram).1 = a from rfl, show ((a', b) : Bigram).1 = a' from rfl, h]

theorem decrypt_pair_congr_snd {pf : Playfair} {a a' : Char}
    (h : pf.get_position_in_matrix a = pf.get_position_in_matrix a') (b : Char) :
    pf.decrypt_pair (b, a) = pf.decrypt_pair (b, a') := by
  unfold Playfair.decrypt_pair
  rw [show ((b, a) : Bigram).2 = a from rfl, show ((b, a') : Bigram).2 = a' from rfl, h]

theorem sub_one_or_four_eq {n : Nat} (hn : n < 5) : sub_one_or_four n = (n + 4) % 5 := by
  interval_cases n <;> rfl

/-! ## Claim theorems -/

set_option maxRecDepth 10000

/-- **C1**: under the key schedule built from seed `"playfair example"`,
`encrypt("hide the gold in the tree stump")` returns exactly
`"bmodzbxdnabekudmuixmmouvif"`, and `decrypt` of that ciphertext returns
exactly `"hidethegoldinthetrexestump"`. -/
theorem wiki_known_vector :
    (Playfair.new wiki_seed).bind (fun pf => pf.encrypt wiki_plain) = some wiki_cipher ∧
    (Playfair.new wiki_seed).bind (fun pf => pf.decrypt wiki_cipher) = some wiki_decrypted := by
  constructor
  · decide
  · decide

/-- **C2** (counterexample): the plaintext `"AB"` satisfies every
hypothesis of the claim — only alphabetic characters, no `'j'`, even
length, and the two symbols of its single digraph differ — yet under the
`"playfair example"` key schedule `decrypt(encrypt("AB"))` is `"ab"`,
not `"AB"`: `bigramify` lowercases its input, so the round trip is not
the identity on plaintexts containing uppercase letters. -/
theorem roundtrip_counterexample :
    (is_alphabetic 'A' = true ∧ is_alphabetic 'B' = true) ∧
    ('j' ∉ (['A', 'B'] : List Char)) ∧ ('J' ∉ (['A', 'B'] : List Char)) ∧
    (['A', 'B'] : List Char).length % 2 = 0 ∧ ('A' : Char) ≠ 'B' ∧
    (Playfair.new wiki_seed).bind
      (fun pf => (pf.encrypt ['A', 'B']).bind pf.decrypt) = some ['a', 'b'] ∧
    (['a', 'b'] : List Char) ≠ ['A', 'B'] := by
  refine ⟨by decide, by decide, by decide, by decide, by decide, by decide, by decide⟩

/-- **C2** (amended): the round trip `decrypt(encrypt(p)) = p` holds for
every plaintext `p` over the 25-symbol universe itself — lowercase ASCII
letters with `'j'` excluded (uppercase or non-ASCII letters are altered
by normalization, so the original claim's "alphabetic" must shrink to
this set) — of even length and with no digraph of two equal symbols,
under the key schedule of any ASCII seed. -/
theorem roundtrip_amended (seed p : List Char) (pf : Playfair)
    (hseed : ∀ c ∈ seed, c.toNat < 128)
    (hp : ∀ c ∈ p, c ∈ alphabet)
    (heven : p.length % 2 = 0)
    (hpairs : ∀ k a b, k % 2 = 0 → p.get? k = some a → p.get? (k + 1) = some b → a ≠ b)
    (hpf : Playfair.new seed = some pf) :
    (pf.encrypt p).bind pf.decrypt = some p :=
  roundtrip_core hseed hp heven hpairs hpf

/-- Witness for `roundtrip_amended` at seed `""` and plaintext `"ab"`. -/
theorem roundtrip_amended_witness :
    (Playfair.new []).bind (fun pf => (pf.encrypt ['a', 'b']).bind pf.decrypt) =
      some ['a', 'b'] := by
  obtain ⟨pf, hpf, -, -⟩ := playfair_new_spec (s := []) (by simp)
  rw [hpf]
  show (pf.encrypt ['a', 'b']).bind pf.decrypt = some ['a', 'b']
  apply roundtrip_amended [] ['a', 'b'] pf (by simp) (by decide) (by decide) ?_ hpf
  intro k a b hk ha hb
  match k, hk with
  | 0, _ =>
    injection ha with ha'
    injection hb with hb'
    subst ha'
    subst hb'
    decide
  | 1, h => exact absurd h (by decide)
  | k + 2, _ => exact absurd ha (by simp)

/-- **C3** (code bug): for the one-character seed `"é"` — a lowercase
non-ASCII letter, kept by the `is_alphabetic` filter — `Keyword::new`
builds a 26-symbol keyword (the byte-length guard `buffer.len() < 25`
admits the two-byte `'é'` plus all 25 alphabet letters), and
`Keyword::to_matrix` then reaches byte offset 25 and 26 and writes
`mtx[_][5]`, out of bounds: a Rust panic, `none` in this embedding.  So
construction is not total, contrary to the claim and to `Keyword::new`'s
own documentation ("This will have a size of 25"). -/
theorem construction_panics_on_e_acute :
    Keyword.to_matrix (Keyword.new [e_acute]) = none ∧ Playfair.new [e_acute] = none := by
  constructor
  · decide
  · decide

/-- **C4** (counterexample): for the seed `"é"` the keyword has 26
symbols and contains `'é'`, which is outside the 25-symbol universe —
the claimed invariant fails for non-ASCII seeds. -/
theorem keyword_universe_counterexample :
    (Keyword.new [e_acute]).length = 26 ∧ e_acute ∈ Keyword.new [e_acute] ∧
      e_acute ∉ alphabet := by
  refine ⟨by decide, by decide, by decide⟩

/-- **C4** (amended): for every seed of ASCII characters, the keyword
produced by `Keyword::new` has no duplicates, exactly 25 symbols, and
its members are exactly the 25-symbol universe (the letters a–z with
`'j'` omitted). -/
theorem keyword_universe_amended (s : List Char) (hs : ∀ c ∈ s, c.toNat < 128) :
    (Keyword.new s).Nodup ∧ (Keyword.new s).length = 25 ∧
      ∀ c, c ∈ Keyword.new s ↔ c ∈ alphabet :=
  ⟨keyword_new_nodup s, keyword_length_ascii hs, mem_keyword_ascii hs⟩

/-- Witness for `keyword_universe_amended` at the seed `"aB!"`. -/
theorem keyword_universe_amended_witness :
    (Keyword.new ['a', 'B', '!']).Nodup ∧ (Keyword.new ['a', 'B', '!']).length = 25 ∧
      ('q' ∈ Keyword.new ['a', 'B', '!'] ∧ 'j' ∉ Keyword.new ['a', 'B', '!']) := by
  obtain ⟨h1, h2, h3⟩ := keyword_universe_amended ['a', 'B', '!'] (by decide)
  exact ⟨h1, h2, (h3 'q').mpr (by decide), fun hj => absurd ((h3 'j').mp hj) (by decide)⟩

theorem filter_lower_drop_j {s : List Char} (hs : ∀ c ∈ s, c.toNat < 256) :
    (((s.filter (fun c => c != 'j' && c != 'J')).map to_lowercase).filter
        (fun c => is_alphabetic c && c != 'j')) =
      ((s.map to_lowercase).filter (fun c => is_alphabetic c && c != 'j')) := by
  induction s with
  | nil => rfl
  | cons c rest ih =>
    have hc : c.toNat < 256 := hs c (by simp)
    have ihr := ih (fun x hx => hs x (by simp [hx]))
    by_cases hj : c = 'j' ∨ c = 'J'
    · have hfilter : ((fun c => c != 'j' && c != 'J') c) = false := by
        rcases hj with rfl | rfl
        · decide
        · decide
      have hlow : to_lowercase c = 'j' := by
        rcases hj with rfl | rfl
        · decide
        · decide
      rw [List.filter_cons, if_neg (by simp [hfilter]), List.map_cons, hlow,
          List.filter_cons, if_neg (by decide)]
      exact ihr
    · have hfilter : ((fun c => c != 'j' && c != 'J') c) = true := by
        simp only [Bool.and_eq_true, bne_iff_ne]
        exact ⟨fun hh => hj (Or.inl hh), fun hh => hj (Or.inr hh)⟩
      rw [List.filter_cons, if_pos (by simp [hfilter]), List.map_cons,
          List.map_cons, List.filter_cons, List.filter_cons, ihr]

/-- **C5** (counterexample): `Keyword::new` does not replace `'j'` with
`'i'` — it discards it: the filter is
`c.is_alphabetic() && *c != 'j'`.  With seed `"j"` the claimed behavior
would give the keyword of seed `"i"` (`"iabc…"`), but the code gives the
keyword of the empty seed. -/
theorem j_replacement_counterexample :
    Keyword.new ['j'] ≠ Keyword.new ['i'] ∧ Keyword.new ['j'] = Keyword.new [] := by
  constructor
  · decide
  · decide

/-- **C5** (amended): keyword normalization *discards* every occurrence
of `'j'` in the seed (after lowercasing, so `'J'` too) rather than
mapping it to `'i'`: for every seed over the faithfully modelled
code-point range (below `0x100`), `Keyword::new` of the seed equals
`Keyword::new` of the seed with every `'j'`/`'J'` removed. -/
theorem j_discarded_amended (s : List Char) (hs : ∀ c ∈ s, c.toNat < 256) :
    Keyword.new s = Keyword.new (s.filter (fun c => c != 'j' && c != 'J')) := by
  show ((s.map to_lowercase).filter (fun c => is_alphabetic c && c != 'j') ++
      alphabet).foldl push_new [] =
    (((s.filter (fun c => c != 'j' && c != 'J')).map to_lowercase).filter
        (fun c => is_alphabetic c && c != 'j') ++ alphabet).foldl push_new []
  rw [filter_lower_drop_j hs]

/-- Witness for `j_discarded_amended` at the seed `"jaJ"`. -/
theorem j_discarded_amended_witness :
    Keyword.new ['j', 'a', 'J'] = Keyword.new ['a'] := by
  have h := j_discarded_amended ['j', 'a', 'J'] (by decide)
  have h2 : (['j', 'a', 'J'].filter (fun c => c != 'j' && c != 'J')) = ['a'] := by decide
  rw [h2] at h
  exact h

/-- **C6** (counterexample): digraphs of two identical symbols do occur.
`bigramify("aaaa")` ends in `('a','a')` — the duplicate-splitting loop
iterates over the byte range frozen at entry, so insertions push
duplicates past the range's end — and `bigramify("xx")` yields
`('x','x')` twice, because the filler inserted after an `'x'` recreates
the very pair it was meant to split. -/
theorem duplicate_split_counterexample :
    ('a', 'a') ∈ (Playfair.bigramify ['a', 'a', 'a', 'a']).getD [] ∧
    ('x', 'x') ∈ (Playfair.bigramify ['x', 'x']).getD [] := by
  constructor
  · decide
  · decide

/-- **C6** (amended): when the two symbols at an examined pair position
are identical — including when the second is the filler `'x'` itself,
which gets no special casing — an `'x'` is inserted immediately after
the first symbol and pairing is re-evaluated from the next pair
position on.  But the loop only examines pair positions below the
*pre-insertion* length of the filtered input, and the inserted `'x'` is
not re-compared with the symbol before it, so identical digraphs can
remain: `bigramify("aaaa") = [(a,x),(a,x),(a,a)]` and
`bigramify("xx") = [(x,x),(x,x)]`, while for every universe letter `c`
the two-letter input `cc` splits into `[(c,x),(c,x)]` and
`bigramify("aab") = [(a,x),(a,b)]` shows re-evaluation after an
insertion. -/
theorem duplicate_split_amended :
    (∀ c ∈ alphabet, Playfair.bigramify [c, c] = some [(c, 'x'), (c, 'x')]) ∧
    Playfair.bigramify ['a', 'a', 'b'] = some [('a', 'x'), ('a', 'b')] ∧
    Playfair.bigramify ['a', 'a', 'a', 'a'] = some [('a', 'x'), ('a', 'x'), ('a', 'a')] ∧
    Playfair.bigramify ['x', 'x'] = some [('x', 'x'), ('x', 'x')] := by
  refine ⟨?_, by decide, by decide, by decide⟩
  intro c hc
  have hlow : to_lowercase c = c := to_lowercase_alphabet hc
  have halpha : is_alphabetic c = true := is_alphabetic_alphabet hc
  have hsz : c.utf8Size = 1 := utf8Size_eq_one (alphabet_ascii hc)
  have hmem2 : ∀ x ∈ ([c, c] : List Char), x ∈ alphabet := by
    intro x hx
    rcases List.mem_cons.mp hx with rfl | hx'
    · exact hc
    · rcases List.mem_cons.mp hx' with rfl | hx''
      · exact hc
      · simp at hx''
  unfold Playfair.bigramify
  rw [filter_map_id hmem2]
  show (match Playfair.bigram_loop [c, c] (step2_indices (utf8_len [c, c])) with
        | none => none
        | some s2 =>
          some (chunk_pairs (if (utf8_len s2 % 2 != 0) = true then s2 ++ ['x'] else s2))) =
    some [(c, 'x'), (c, 'x')]
  have hul : utf8_len [c, c] = 2 := by
    unfold utf8_len
    simp [hsz]
  rw [hul, show step2_indices 2 = [0] from rfl]
  have hbyte : byte_to_char_idx [c, c] 1 = some 1 := by
    show (if c.utf8Size ≤ 1 then (byte_to_char_idx [c] (1 - c.utf8Size)).map (· + 1)
          else none) = some 1
    rw [hsz]
    simp
    rfl
  have hins : insert_at_byte [c, c] 1 = some [c, 'x', c] := by
    unfold insert_at_byte
    rw [hbyte]
    rfl
  have hloop : Playfair.bigram_loop [c, c] [0] = some [c, 'x', c] := by
    show (if c = c then
            (match insert_at_byte [c, c] 1 with
             | none => none
             | some s' => Playfair.bigram_loop s' [])
          else Playfair.bigram_loop [c, c] []) = some [c, 'x', c]
    rw [if_pos rfl, hins]
    rfl
  rw [hloop]
  have hul3 : utf8_len [c, 'x', c] = 3 := by
    unfold utf8_len
    simp [hsz]
    decide
  show some (chunk_pairs (if (utf8_len [c, 'x', c] % 2 != 0) = true
        then [c, 'x', c] ++ ['x'] else [c, 'x', c])) = some [(c, 'x'), (c, 'x')]
  rw [hul3]
  rfl

/-- Witness for `duplicate_split_amended` at `c = 'a'`. -/
theorem duplicate_split_amended_witness :
    Playfair.bigramify ['a', 'a'] = some [('a', 'x'), ('a', 'x')] :=
  duplicate_split_amended.1 'a' (by decide)

/-- **C7** (counterexample): `'i'` and `'j'` both resolve to cell
`(0, 1)` of the `"playfair example"` grid, but a same-cell digraph does
*not* take the same-column branch: the code checks equality of the
*first* position components first (`a_pos.0 == b_pos.0`), which in the
spec's coordinates (row = keyword index mod 5) is the same-*row* test.
So `encrypt("ij")` moves along the row and yields `"bb"`, not the
`"rr"` (`entry 1 1` twice) the claim's same-column rule would give. -/
theorem same_column_counterexample :
    (Playfair.new wiki_seed).bind (fun pf => pf.get_position_in_matrix 'i') = some (0, 1) ∧
    (Playfair.new wiki_seed).bind (fun pf => pf.get_position_in_matrix 'j') = some (0, 1) ∧
    (Playfair.new wiki_seed).bind (fun pf => pf.encrypt ['i', 'j']) = some ['b', 'b'] ∧
    (Playfair.new wiki_seed).bind (fun pf => some (entry pf.matrix 1 1)) = some 'r' ∧
    ('b' : Char) ≠ 'r' := by
  refine ⟨by decide, by decide, by decide, by decide, by decide⟩

/-- **C7** (amended): for digraphs whose two positions share a column
(equal second components, in the spec's coordinates where the symbol at
keyword index `n` sits at row `n % 5`, column `n / 5`) *and lie in
distinct rows*, encryption replaces each symbol with the one at
`(row + 1) mod 5` in the same column and decryption with the one at
`(row + 4) mod 5`.  Same-cell digraphs such as `('i','j')` are excluded:
they satisfy the same-row test, which the code checks first (see
`same_column_counterexample`). -/
theorem same_column_rule_amended (pf : Playfair) (a b : Char) (ra ca rb : Nat)
    (hra : ra < 5) (hrb : rb < 5) (hne : ra ≠ rb)
    (hpa : pf.get_position_in_matrix a = some (ra, ca))
    (hpb : pf.get_position_in_matrix b = some (rb, ca)) :
    pf.encrypt_pair (a, b) =
      some [entry pf.matrix ((ra + 1) % 5) ca, entry pf.matrix ((rb + 1) % 5) ca] ∧
    pf.decrypt_pair (a, b) =
      some [entry pf.matrix ((ra + 4) % 5) ca, entry pf.matrix ((rb + 4) % 5) ca] := by
  constructor
  · rw [encrypt_pair_eval pf hpa hpb, if_neg hne, if_pos rfl]
  · rw [decrypt_pair_eval pf hpa hpb, if_neg hne, if_pos rfl]
    rw [show sub_one_or_four ((ra, ca).1) = (ra + 4) % 5 from sub_one_or_four_eq hra,
        show sub_one_or_four ((rb, ca).1) = (rb + 4) % 5 from sub_one_or_four_eq hrb]

/-- Witness for `same_column_rule_amended`: `'p'` at `(0,0)` and `'l'`
at `(1,0)` of the `"playfair example"` grid. -/
theorem same_column_rule_amended_witness :
    ((Playfair.new wiki_seed).get (by decide)).encrypt_pair ('p', 'l') =
      some [entry ((Playfair.new wiki_seed).get (by decide)).matrix ((0 + 1) % 5) 0,
            entry ((Playfair.new wiki_seed).get (by decide)).matrix ((1 + 1) % 5) 0] ∧
    ((Playfair.new wiki_seed).get (by decide)).decrypt_pair ('p', 'l') =
      some [entry ((Playfair.new wiki_seed).get (by decide)).matrix ((0 + 4) % 5) 0,
            entry ((Playfair.new wiki_seed).get (by decide)).matrix ((1 + 4) % 5) 0] :=
  same_column_rule_amended ((Playfair.new wiki_seed).get (by decide)) 'p' 'l' 0 0 1
    (by decide) (by decide) (by decide) (by decide) (by decide)

/-- **C8**: `Keyword::new("playfair example")` yields the normalized
keyword `"playfirexmbcdghknoqstuvwz"` (25 characters), and for every
keyword over the 25-symbol universe without duplicates — the data-model
invariant for keywords — `to_matrix` succeeds and places the symbol at
zero-based sequence index `n` at grid row `n % 5`, column `n / 5`
(column-major fill; row is the first index of the `Matrix` type). -/
theorem column_major_layout :
    Keyword.new wiki_seed = wiki_keyword ∧
    ∀ kw : List Char, kw.Nodup → (∀ c ∈ kw, c ∈ alphabet) →
      ∃ m, Keyword.to_matrix kw = some m ∧
        ∀ n, (h : n < kw.length) → entry m (n % 5) (n / 5) = kw.get ⟨n, h⟩ := by
  constructor
  · decide
  · intro kw hnd hmem
    have hlen : kw.length ≤ 25 := by
      have hsub := List.subperm_of_subset hnd (fun c hc => hmem c hc)
      exact hsub.length_le.trans (by decide)
    obtain ⟨m, hm, hmod⟩ := to_matrix_spec (fun c hc => alphabet_ascii (hmem c hc)) hlen
    refine ⟨m, hm, ?_⟩
    intro n h
    have hent := hmod.2.2 (n % 5) (n / 5) (by omega) (by omega)
    rw [hent, show 5 * (n / 5) + n % 5 = n by omega, List.getD_eq_getElem _ _ h]
    exact (List.get_eq_getElem kw ⟨n, h⟩).symm

/-- Witness for the universal part of `column_major_layout` at the
two-symbol keyword `"ba"`. -/
theorem column_major_layout_witness :
    ∃ m, Keyword.to_matrix ['b', 'a'] = some m ∧
      ∀ n, (h : n < (['b', 'a'] : List Char).length) →
        entry m (n % 5) (n / 5) = (['b', 'a'] : List Char).get ⟨n, h⟩ :=
  column_major_layout.2 ['b', 'a'] (by decide) (by decide)

/-- **C9**: re-keying replaces the key schedule wholesale:
`update_keyword(s1)` on a cipher built from `s0` produces exactly what
`Playfair::new(s1)` produces, so subsequent `encrypt`/`decrypt` calls
return exactly what a freshly constructed cipher returns — no carry-over
state. -/
theorem rekey_matches_fresh (s0 s1 t : List Char) (pf0 : Playfair)
    (h0 : Playfair.new s0 = some pf0) :
    pf0.update_keyword s1 = Playfair.new s1 ∧
    ∀ pf1 pf1', pf0.update_keyword s1 = some pf1 → Playfair.new s1 = some pf1' →
      pf1.encrypt t = pf1'.encrypt t ∧ pf1.decrypt t = pf1'.decrypt t := by
  have hupd : pf0.update_keyword s1 = Playfair.new s1 := rfl
  refine ⟨hupd, ?_⟩
  intro pf1 pf1' h1 h1'
  rw [hupd, h1'] at h1
  injection h1 with h1
  subst h1
  exact ⟨rfl, rfl⟩

/-- Witness for `rekey_matches_fresh` at `s0 = "a"`, `s1 = "b"`,
`t = "hi"`. -/
theorem rekey_matches_fresh_witness :
    ((Playfair.new ['a']).get (by decide)).update_keyword ['b'] = Playfair.new ['b'] :=
  (rekey_matches_fresh ['a'] ['b'] ['h', 'i'] ((Playfair.new ['a']).get (by decide))
    (Option.some_get (by decide)).symm).1

/-- **C10**: for every cipher instance whose matrix contains `'i'`, the
position lookup falls back to `'i'` for *any* character absent from the
matrix: `get_position_in_matrix` returns exactly the position of `'i'`,
and consequently each per-digraph encryption/decryption step treats
such a character exactly as if it were `'i'` in either slot.  (The
containment hypothesis holds for every successfully constructed
instance: an ASCII seed fills the grid with the whole 25-symbol
universe, and a non-ASCII seed makes construction panic — see
`construction_panics_on_e_acute`.) -/
theorem absent_char_treated_as_i (pf : Playfair) (c : Char)
    (hc : ∀ row ∈ pf.matrix, c ∉ row)
    (hi : ∃ row ∈ pf.matrix, 'i' ∈ row) :
    pf.get_position_in_matrix c = pf.get_position_in_matrix 'i' ∧
    (∃ p, pf.get_position_in_matrix c = some p) ∧
    ∀ b, pf.encrypt_pair (c, b) = pf.encrypt_pair ('i', b) ∧
         pf.encrypt_pair (b, c) = pf.encrypt_pair (b, 'i') ∧
         pf.decrypt_pair (c, b) = pf.decrypt_pair ('i', b) ∧
         pf.decrypt_pair (b, c) = pf.decrypt_pair (b, 'i') := by
  have hnone : find_in_matrix pf.matrix 0 c = none := find_in_matrix_eq_none pf.matrix 0 hc
  obtain ⟨p, hp⟩ := find_in_matrix_isSome pf.matrix 0 hi
  have hgc : pf.get_position_in_matrix c = some p := by
    unfold Playfair.get_position_in_matrix
    rw [hnone, hp]
  have hgi : pf.get_position_in_matrix 'i' = some p := by
    unfold Playfair.get_position_in_matrix
    rw [hp]
  have hsame : pf.get_position_in_matrix c = pf.get_position_in_matrix 'i' := by
    rw [hgc, hgi]
  refine ⟨hsame, ⟨p, hgc⟩, ?_⟩
  intro b
  exact ⟨encrypt_pair_congr_fst hsame b, encrypt_pair_congr_snd hsame b,
         decrypt_pair_congr_fst hsame b, decrypt_pair_congr_snd hsame b⟩

/-- Witness for `absent_char_treated_as_i`: `'j'` is absent from the
`"playfair example"` grid, which contains `'i'`. -/
theorem absent_char_treated_as_i_witness :
    ((Playfair.new wiki_seed).get (by decide)).get_position_in_matrix 'j' =
      ((Playfair.new wiki_seed).get (by decide)).get_position_in_matrix 'i' ∧
    ((Playfair.new wiki_seed).get (by decide)).encrypt_pair ('j', 'a') =
      ((Playfair.new wiki_seed).get (by decide)).encrypt_pair ('i', 'a') := by
  obtain ⟨h1, -, h3⟩ := absent_char_treated_as_i ((Playfair.new wiki_seed).get (by decide))
    'j' (by decide) (by decide)
  exact ⟨h1, (h3 'a').1⟩
